import Mathlib

/-!
# wget.go: a shallow embedding and its verified properties

The Go program `wget.go` fetches each URL given on the command line, derives an
output file name, streams the body to disk in reads of at most 4068 bytes and
draws a progress line on standard error.

Conventions of the embedding

* A Go `string` is a sequence of bytes.  A byte is written as the character with
  the same code, so that ASCII literals read exactly as in the source.
* `int64` values are integers; every arithmetic operation that can leave the
  64-bit range is followed by `wrap64`.  The type `int` is 64 bits wide.
* A run-time panic (integer division by zero, slice bounds, a panic of
  `strings.Repeat`) is an explicit outcome, never an exception of the host
  language.
* Everything the program obtains from its surroundings (the HTTP response, the
  reads of the body, the file system, the failures of `Write`) is an explicit
  argument; what it changes (the file system, the bytes sent to `errPipe`) is an
  explicit result.
* Library functions are transcribed from the Go standard library where the
  claims depend on them (`path.Clean`, `filepath.Base`, `strconv.ParseInt`);
  `mime.ParseMediaType` and the `%.3g` verb of `fmt` are arguments.
-/

namespace Wget

/-! ## Strings and machine integers -/

/-- Go strings, as byte sequences. -/
abbrev GoString := List Char

/-- Two-complement wrap-around of an integer into the `int64` range. -/
def wrap64 (x : Int) : Int := (x + 2 ^ 63) % 2 ^ 64 - 2 ^ 63

/-- Go integer division on `int64`: truncated towards zero; the single overflowing
case `MinInt64 / -1` wraps.  The divisor is not zero (the caller checks it). -/
def quo64 (a b : Int) : Int := wrap64 (Int.tdiv a b)

/-- The verb `%d` of `fmt` on an integer. -/
def fmtD (x : Int) : GoString :=
  if x < 0 then '-' :: Nat.toDigits 10 x.natAbs else Nat.toDigits 10 x.natAbs

/-- Left padding with blanks up to a width, as `fmt` does for `%3d`. -/
def padLeft (width : Nat) (s : GoString) : GoString :=
  List.replicate (width - s.length) ' ' ++ s

/-- The constant `maxAlloc` of the Go runtime on 64-bit Linux: no allocation can
be larger, `makeslice` panics beyond it.  Memory is otherwise taken as unbounded. -/
def maxAlloc : Nat := 281474976710656

/-- The function `strings.Repeat` on a one-byte string.  The result `none` records
a panic: on a negative count (`strings: negative Repeat count`), and on a count
so large that the result cannot be allocated (`makeslice: len out of range`). -/
def stringsRepeat (c : Char) (count : Int) : Option GoString :=
  if count < 0 then none
  else if count > (maxAlloc : Int) then none
  else some (List.replicate count.toNat c)

/-! ## `progress` (wget.go, lines 94-106) -/

/-- The number of `=` signs computed by `progress`, after its lower clamp. -/
def equalses (percents : Int) : Int :=
  let e := quo64 (wrap64 (percents * 38)) 100
  if e < 0 then 0 else e

/-- The number of blanks computed by `progress`, after its lower clamp. -/
def spaces (percents : Int) : Int :=
  let s := wrap64 (38 - equalses percents)
  if s < 0 then 0 else s

/-- The function `progress`: `none` stands for a panic of `strings.Repeat`. -/
def progress (percents : Int) : Option GoString :=
  match stringsRepeat '=' (equalses percents), stringsRepeat ' ' (spaces percents) with
  | some l, some r => some (l ++ '>' :: r)
  | _, _ => none

/-! ## `byteUnitStr` (wget.go, lines 16 and 120-133) -/

/-- The table `byteUnits`. -/
def byteUnits : List GoString :=
  ["B".toList, "KB".toList, "MB".toList, "GB".toList, "TB".toList, "PB".toList]

/-- The variable `size` of `byteUnitStr`, kept as the exact quotient `num / den`.
The source holds it in a `float64`; the rounding of the conversion and of each
division is not modelled, so the value here is the one the float approximates
(and equals it whenever every quotient is representable). -/
structure Size where
  num : Int
  den : Nat
deriving DecidableEq, Repr

/-- The test `size < 1000`. -/
def Size.lt1000 (s : Size) : Bool := decide (s.num < 1000 * (s.den : Int))

/-- The update `size = size / 1000`. -/
def Size.div1000 (s : Size) : Size := ⟨s.num, s.den * 1000⟩

/-- The loop `for i := 1; i < len(byteUnits); i++` of `byteUnitStr`, over the
values of `i` still to come.  It returns `size` and `unit` as they stand when the
loop is left; `unit` is the empty string when no iteration assigned it. -/
def byteUnitLoop : List Nat → Size → Size × GoString
  | [], size => (size, [])
  | i :: is, size =>
    if size.lt1000 then (size, byteUnits.getD (i - 1) [])
    else byteUnitLoop is size.div1000

/-- The values of `size` and `unit` that `byteUnitStr n` hands to `Sprintf`. -/
def byteUnitParts (n : Int) : Size × GoString :=
  byteUnitLoop (List.range' 1 (byteUnits.length - 1)) ⟨n, 1⟩

/-- The function `byteUnitStr`; `fmt3g` is the verb `%.3g` of `fmt`. -/
def byteUnitStr (fmt3g : Size → GoString) (n : Int) : GoString :=
  fmt3g (byteUnitParts n).1 ++ ' ' :: (byteUnitParts n).2

/-! ## `drawProgress` (wget.go, lines 108-118) -/

/-- The ways a call can panic. -/
inductive Panic
  | divideByZero
  | stringsRepeat
  | sliceBounds
deriving DecidableEq, Repr

deriving instance DecidableEq for Except

/-- The line of the unknown-length form. -/
def unknownLine (total : Int) : GoString :=
  "\r     [ <=>                                  ] ".toList ++ fmtD total
    ++ "\t            ".toList

/-- The line of the percentage form. -/
def percentLine (percents : Int) (bar size : GoString) : GoString :=
  '\r' :: padLeft 3 (fmtD percents) ++ "% [".toList ++ bar ++ "] ".toList ++ size
    ++ "\t            ".toList

/-- The function `drawProgress`: the bytes it writes to `errPipe`, or the panic
that stops it.  The statements run in the order of the source: the division, the
call of `progress`, the call of `byteUnitStr`, and only then the test
`length < 1`. -/
def drawProgress (fmt3g : Size → GoString) (total length : Int) : Except Panic GoString :=
  if length = 0 then .error .divideByZero
  else
    let percents := quo64 (wrap64 (100 * total)) length
    match progress percents with
    | none => .error .stringsRepeat
    | some bar =>
      let size := byteUnitStr fmt3g total
      if length < 1 then .ok (unknownLine total)
      else .ok (percentLine percents bar size)

/-! ## Errors -/

/-- The two causes a `*strconv.NumError` can carry here: `ErrRange` and
`ErrSyntax`. -/
inductive NumErrKind
  | ErrRange
  | ErrSyn
deriving DecidableEq, Repr

/-- The error values the program handles.  `errorString` is what `errors.New` and
`fmt.Errorf` build; `numError` is the `*strconv.NumError` of `ParseInt`;
`pathError` is the `*fs.PathError` of `os.OpenFile`; `EOF` is `io.EOF`;
`external` is any other error handed in by the surroundings (the transport, a
read of the body, a write to the file). -/
inductive GoError
  | errorString (msg : GoString)
  | numError (func num : GoString) (kind : NumErrKind)
  | pathError (op path : GoString)
  | EOF
  | external (code : Nat)
deriving DecidableEq, Repr

/-! ## `strconv.ParseInt` at base 10 (Go standard library, strconv/atoi.go) -/

/-- The helper `lower` of strconv: `c | ('x' - 'X')`. -/
def lower (c : Nat) : Nat := c ||| 32

/-- The value `d` the loop of `ParseUint` gives to the byte `c` when the base is
not 0; `none` is the `default` branch of its switch (a bad byte). -/
def digitVal (c : Char) : Option Nat :=
  if 48 ≤ c.toNat ∧ c.toNat ≤ 57 then some (c.toNat - 48)
  else if 97 ≤ lower c.toNat ∧ lower c.toNat ≤ 122 then some (lower c.toNat - 97 + 10)
  else none

/-- The loop of `ParseUint` over the bytes still to read, `n` being the value
accumulated so far (a `uint64`).  The result is the pair the function returns
from inside or after the loop. -/
def parseUintLoop (base cutoff maxVal : Nat) : GoString → Nat → Nat × Option NumErrKind
  | [], n => (n, none)
  | c :: cs, n =>
    match digitVal c with
    | none => (0, some .ErrSyn)
    | some d =>
      if d ≥ base then (0, some .ErrSyn)
      else if n ≥ cutoff then (maxVal, some .ErrRange)
      else
        let n10 := (n * base) % 2 ^ 64
        let n1 := (n10 + d) % 2 ^ 64
        if n1 < n10 ∨ n1 > maxVal then (maxVal, some .ErrRange)
        else parseUintLoop base cutoff maxVal cs n1

/-- The function `strconv.ParseUint(s, 10, bitSize)` for `0 < bitSize ≤ 64`: the
value and the cause of the error, if any. -/
def ParseUint (s : GoString) (bitSize : Nat) : Nat × Option NumErrKind :=
  if s = [] then (0, some .ErrSyn)
  else parseUintLoop 10 ((2 ^ 64 - 1) / 10 + 1) (2 ^ bitSize - 1) s 0

/-- The function `strconv.ParseInt(s, 10, bitSize)` for `0 < bitSize ≤ 64`. -/
def ParseInt (s : GoString) (bitSize : Nat) : Int × Option GoError :=
  if s = [] then (0, some (.numError "ParseInt".toList s .ErrSyn))
  else
    let neg : Bool := s.head? = some '-'
    let s1 := if s.head? = some '+' ∨ s.head? = some '-' then s.tail else s
    match ParseUint s1 bitSize with
    | (_, some .ErrSyn) => (0, some (.numError "ParseInt".toList s .ErrSyn))
    | (un, _) =>
      let cutoff : Nat := 2 ^ (bitSize - 1)
      if !neg ∧ un ≥ cutoff then
        ((cutoff : Int) - 1, some (.numError "ParseInt".toList s .ErrRange))
      else if neg ∧ un > cutoff then
        (-(cutoff : Int), some (.numError "ParseInt".toList s .ErrRange))
      else
        let n := wrap64 un
        (if neg then wrap64 (-n) else n, none)

/-! ## `path.Clean` and `filepath.Base` (Go standard library, Unix separator) -/

/-- The inner loop of the `..` case of `Clean`, after `out.w--`:
`for out.w > dotdot && out.index(out.w) != '/' { out.w-- }`.
The argument is the current `out.w`, the result the final one. -/
def backtrackFrom (buf : GoString) (dotdot : Nat) : Nat → Nat
  | 0 => 0
  | w + 1 =>
    if w + 1 > dotdot ∧ buf.getD (w + 1) '/' ≠ '/' then backtrackFrom buf dotdot w
    else w + 1

/-- The main loop `for r < n` of `Clean`.  `rest` is `path[r:]`, `out` is the
written part `buf[:w]` of the lazy buffer, and the first argument bounds the
number of iterations (each one reads at least one byte, so the length of the
path is enough). -/
def cleanLoop (rooted : Bool) : Nat → GoString → GoString → Nat → GoString
  | 0, _, out, _ => out
  | fuel + 1, rest, out, dotdot =>
    match rest with
    | [] => out
    | c :: cs =>
      if c = '/' then
        -- empty path element
        cleanLoop rooted fuel cs out dotdot
      else if c = '.' ∧ (cs = [] ∨ cs.head? = some '/') then
        -- . element
        cleanLoop rooted fuel cs out dotdot
      else if c = '.' ∧ cs.head? = some '.' ∧ (cs.tail = [] ∨ cs.tail.head? = some '/') then
        -- .. element: remove to last /
        if out.length > dotdot then
          cleanLoop rooted fuel cs.tail
            (out.take (backtrackFrom out dotdot (out.length - 1))) dotdot
        else if !rooted then
          let out1 := if out.length > 0 then out ++ ['/'] else out
          let out2 := out1 ++ ['.', '.']
          cleanLoop rooted fuel cs.tail out2 out2.length
        else cleanLoop rooted fuel cs.tail out dotdot
      else
        -- real path element: add slash if needed, copy element
        let out1 :=
          if (rooted ∧ out.length ≠ 1) ∨ (!rooted ∧ out.length ≠ 0) then out ++ ['/'] else out
        cleanLoop rooted fuel (rest.dropWhile (· ≠ '/')) (out1 ++ rest.takeWhile (· ≠ '/')) dotdot

/-- The function `path.Clean`. -/
def Clean (path : GoString) : GoString :=
  if path = [] then ['.']
  else
    let rooted : Bool := path.head? = some '/'
    let out :=
      if rooted then cleanLoop rooted path.length path.tail ['/'] 1
      else cleanLoop rooted path.length path [] 0
    if out = [] then ['.'] else out

/-- The function `filepath.Base` with `/` as the separator (the volume name is
empty on Unix): strip the trailing slashes, keep what follows the last slash. -/
def Base (path : GoString) : GoString :=
  if path = [] then ['.']
  else
    let stripped := path.rdropWhile (· = '/')
    let last := stripped.rtakeWhile (· ≠ '/')
    if last = [] then ['/'] else last

/-- The statement `filename = filepath.Base(path.Clean("/" + filename))` of
`download` (line 49). -/
def sanitize (filename : GoString) : GoString := Base (Clean ('/' :: filename))

/-! ## The surroundings of `download` -/

/-- One result `(n, err)` of `response.Body.Read(buf)`: `data` holds the `n`
bytes placed at the start of `buf`. -/
structure ReadResult where
  data : GoString
  err : Option GoError
deriving DecidableEq, Repr

/-- What `download` looks at in the `*http.Response` returned by `http.Get`:
`urlPath` is `response.Request.URL.Path`; the two header fields hold the result
of `response.Header.Get`, the empty string when the header is absent; `body` lists
the successive results of `response.Body.Read`, after which every further read
returns `(0, io.EOF)`. -/
structure Response where
  StatusCode : Int
  Status : GoString
  urlPath : GoString
  contentDisposition : GoString
  contentLength : GoString
  body : List ReadResult

/-- An entry of the working directory. -/
inductive Node
  | file (content : GoString)
  | dir
deriving DecidableEq, Repr

/-- The file system: what each path names, if anything. -/
abbrev FS := GoString → Option Node

/-- The parts of the surroundings that are functions: the verb `%.3g` of `fmt`,
the function `mime.ParseMediaType` (media type and parameter map, or an error),
and the failures of `out.Write`: `writeFault i = some (k, e)` when the write of
the chunk number `i` stores only `k` bytes and returns the error `e`. -/
structure Env where
  fmt3g : Size → GoString
  parseMediaType : GoString → Except GoError (GoString × List (GoString × GoString))
  writeFault : Nat → Option (Nat × GoError)

/-- How a call of `download` ends: it returns its `error` result (`none` is
`nil`), or it panics. -/
inductive Outcome
  | returned (err : Option GoError)
  | panicked (p : Panic)
deriving DecidableEq, Repr

/-- A finished call of `download`: how it ended, the file system it leaves, and
the strings written to `errPipe`, one per call of `Fprintf`. -/
structure Result where
  outcome : Outcome
  fs : FS
  stderr : List GoString

/-- A Go map lookup `params[key]`: the zero value `""` when the key is absent. -/
def mapGet (params : List (GoString × GoString)) (key : GoString) : GoString :=
  (params.lookup key).getD []

/-- The call `os.OpenFile(name, os.O_CREATE|os.O_WRONLY, 0644)`: a directory
cannot be opened for writing (the root `/` is always one); an existing file is
opened as it is, since the flags do not include `O_TRUNC`; a missing file is
created empty.  The file offset of the new handle is 0. -/
def OpenFile (fs : FS) (name : GoString) : Except GoError FS :=
  match (if name = ['/'] then some Node.dir else fs name) with
  | some .dir => .error (.pathError "open".toList name)
  | some (.file _) => .ok fs
  | none => .ok (Function.update fs name (some (.file [])))

/-- The content of a file after `data` is written at the offset `off`. -/
def writeAt (content : GoString) (off : Nat) (data : GoString) : GoString :=
  content.take off ++ data ++ content.drop (off + data.length)

/-- The file system after `data` is written at the offset `off` of the open file
`name`. -/
def fsWrite (fs : FS) (name : GoString) (off : Nat) (data : GoString) : FS :=
  match fs name with
  | some (.file content) => Function.update fs name (some (.file (writeAt content off data)))
  | _ => fs

/-! ## `download` (wget.go, lines 29-92) -/

/-- The completion message of line 89. -/
def completionLine (filename size : GoString) : GoString :=
  "\n `".toList ++ filename ++ "` has been successfully downloaded [".toList ++ size
    ++ "]\n".toList

/-- The message of line 58. -/
def missingLengthMsg (filename : GoString) : GoString :=
  "`".toList ++ filename ++ "` - could not find file length using HEAD request".toList

/-- Lines 88-91: the last call of `drawProgress`, the completion message, and
`return nil`. -/
def finish (env : Env) (filename : GoString) (length total : Int) (fs : FS)
    (log : List GoString) : Result :=
  match drawProgress env.fmt3g total length with
  | .error p => ⟨.panicked p, fs, log⟩
  | .ok line =>
    ⟨.returned none, fs, log ++ [line, completionLine filename (byteUnitStr env.fmt3g total)]⟩

/-- The loop of lines 72-86 over the reads still to come, followed by lines
88-91.  `total` and `i` are the variables of the source, `off` is the offset of
`outFile`, `log` what was written to `errPipe` so far. -/
def copyLoop (env : Env) (filename : GoString) (length : Int) :
    List ReadResult → Int → Nat → Nat → FS → List GoString → Result
  | [], total, _, _, fs, log => finish env filename length total fs log
  | r :: rest, total, i, off, fs, log =>
    if r.err ≠ none ∧ r.err ≠ some .EOF then ⟨.returned r.err, fs, log⟩
    else if r.data.length = 0 then finish env filename length total fs log
    else
      let total1 := wrap64 (total + r.data.length)
      if r.data.length > 4068 then ⟨.panicked .sliceBounds, fs, log⟩
      else
        match env.writeFault i with
        | some (k, e) => ⟨.returned (some e), fsWrite fs filename off (r.data.take k), log⟩
        | none =>
          let fs1 := fsWrite fs filename off r.data
          match drawProgress env.fmt3g total1 length with
          | .error p => ⟨.panicked p, fs1, log⟩
          | .ok line =>
            copyLoop env filename length rest total1 (i + 1) (off + r.data.length) fs1
              (log ++ [line])

/-- Lines 43-48: the file name before it is sanitized. -/
def pickFilename (env : Env) (response : Response) : GoString :=
  if response.contentDisposition ≠ [] then
    match env.parseMediaType response.contentDisposition with
    | .ok (_, params) => mapGet params "filename".toList
    | .error _ => response.urlPath
  else response.urlPath

/-- Lines 61-91: open the output file and copy the body. -/
def transfer (env : Env) (fs : FS) (filename : GoString) (length : Int)
    (body : List ReadResult) : Result :=
  match OpenFile fs filename with
  | .error e => ⟨.returned (some e), fs, []⟩
  | .ok fs1 => copyLoop env filename length body 0 0 0 fs1 []

/-- Lines 43-91: what `download` does once the status is accepted. -/
def afterStatus (env : Env) (fs : FS) (response : Response) : Result :=
  let filename := sanitize (pickFilename env response)
  if response.contentLength ≠ [] then
    match ParseInt response.contentLength 32 with
    | (_, some e) => ⟨.returned (some e), fs, []⟩
    | (length, none) => transfer env fs filename length response.body
  else ⟨.returned (some (.errorString (missingLengthMsg filename))), fs, []⟩

/-- The function `download`; `get` is the result of `http.Get(url)`. -/
def download (env : Env) (fs : FS) (get : Except GoError Response) : Result :=
  match get with
  | .error e => ⟨.returned (some e), fs, []⟩
  | .ok response =>
    if response.StatusCode ≠ 200 then ⟨.returned (some (.errorString response.Status)), fs, []⟩
    else afterStatus env fs response

/-! ## Reading a decimal integer, for the statement of the length derivation -/

/-- A byte between `0` and `9`. -/
def isDecDigit (c : Char) : Bool := decide (48 ≤ c.toNat ∧ c.toNat ≤ 57)

/-- The number a string of decimal digits denotes. -/
def decValue (ds : GoString) : Nat := ds.foldl (fun n c => n * 10 + (c.toNat - 48)) 0

/-- The integer denoted by a string made of an optional sign `+` or `-` followed
by one or more decimal digits; `none` for every other string. -/
def signedDecimal (s : GoString) : Option Int :=
  let ds := if s.head? = some '+' ∨ s.head? = some '-' then s.tail else s
  if ds ≠ [] ∧ ds.all isDecDigit then
    some (if s.head? = some '-' then -(decValue ds : Int) else (decValue ds : Int))
  else none

/-! ## The body as a whole, for the statement of the accounting -/

/-- The bytes of a body: the chunks of its reads, in order. -/
def bodyBytes (body : List ReadResult) : GoString := (body.map (·.data)).flatten

/-- The sum of the sizes `n` of the reads of a body. -/
def bodySize (body : List ReadResult) : Nat := (body.map (·.data.length)).sum

/-! ## Rooted paths, for the statement of the sanitization -/

/-- The elements of a path written one after the other, each behind a slash. -/
def joinElems (elems : List GoString) : GoString := (elems.map ('/' :: ·)).flatten

/-- The rooted path with the given elements; `/` alone when there are none. -/
def rootedPath (elems : List GoString) : GoString :=
  if elems = [] then ['/'] else joinElems elems

/-- A proper path element: not empty, without a slash, and neither `.` nor `..`. -/
def isElem (e : GoString) : Prop := e ≠ [] ∧ '/' ∉ e ∧ e ≠ ['.'] ∧ e ≠ ['.', '.']

instance (e : GoString) : Decidable (isElem e) := by
  unfold isElem
  infer_instance

/-! ## Sample surroundings, used to run the definitions on concrete inputs -/

/-- A stand-in for the verb `%.3g`: the integer part of the size, in decimal. -/
def sampleFmt (s : Size) : GoString := fmtD (s.num / (s.den : Int))

/-- A stand-in for `mime.ParseMediaType`, defined on two header values with the
results the library gives for them; every other value is rejected. -/
def sampleParse (cd : GoString) : Except GoError (GoString × List (GoString × GoString)) :=
  if cd = "attachment".toList then .ok ("attachment".toList, [])
  else if cd = "attachment; filename=\"../../etc/passwd\"".toList then
    .ok ("attachment".toList, [("filename".toList, "../../etc/passwd".toList)])
  else .error (.errorString "mime: no media type".toList)

/-- Sample surroundings in which no write fails. -/
def sampleEnv : Env := ⟨sampleFmt, sampleParse, fun _ => none⟩

/-- A working directory holding one file, `report.pdf`, of nine bytes. -/
def sampleFS : FS := fun name =>
  if name = "report.pdf".toList then some (.file "OLDOLDOLD".toList) else none

/-- A response `200 OK` for the URL path `/a/b/c/report.pdf` with a body of three
bytes delivered by one read. -/
def sampleResponse : Response :=
  { StatusCode := 200, Status := "200 OK".toList, urlPath := "/a/b/c/report.pdf".toList,
    contentDisposition := [], contentLength := "3".toList,
    body := [⟨"new".toList, none⟩] }

/-! # Theorems -/

/-! ## Status validation and the missing length -/

/-- C3. A response whose status code is not 200 makes `download` return the error
whose message is the status text, with the file system unchanged and nothing
written to `errPipe`; a response with status code 200 passes the check, that is,
`download` goes on with the statements after it. -/
theorem download_status (env : Env) (fs : FS) (response : Response) :
    (response.StatusCode ≠ 200 →
      download env fs (.ok response)
        = ⟨.returned (some (.errorString response.Status)), fs, []⟩) ∧
    (response.StatusCode = 200 →
      download env fs (.ok response) = afterStatus env fs response) := by
  constructor
  · intro h
    simp [download, h]
  · intro h
    simp [download, h]

/-- Witness of C3, at the statuses 404 and 200. -/
theorem download_status_witness :
    download sampleEnv sampleFS
        (.ok { sampleResponse with StatusCode := 404, Status := "404 Not Found".toList })
      = ⟨.returned (some (.errorString "404 Not Found".toList)), sampleFS, []⟩ ∧
    download sampleEnv sampleFS (.ok sampleResponse) = afterStatus sampleEnv sampleFS sampleResponse :=
  ⟨(download_status sampleEnv sampleFS
      { sampleResponse with StatusCode := 404, Status := "404 Not Found".toList }).1 (by decide),
   (download_status sampleEnv sampleFS sampleResponse).2 rfl⟩

/-- C2. A response with status 200 and an empty `Content-Length` value makes
`download` return the error whose message is the sanitized file name between
backquotes followed by the fixed text; the file system is unchanged (the output
file is never opened) and nothing is written to `errPipe`. -/
theorem download_missing_length (env : Env) (fs : FS) (response : Response)
    (hstatus : response.StatusCode = 200) (hlen : response.contentLength = []) :
    download env fs (.ok response)
      = ⟨.returned (some (.errorString
            ("`".toList ++ sanitize (pickFilename env response)
              ++ "` - could not find file length using HEAD request".toList))),
          fs, []⟩ := by
  simp [download, afterStatus, hstatus, hlen, missingLengthMsg]

/-- Witness of C2: the sample response without its `Content-Length`. -/
theorem download_missing_length_witness :
    download sampleEnv sampleFS (.ok { sampleResponse with contentLength := [] })
      = ⟨.returned (some (.errorString
            ("`".toList ++ sanitize (pickFilename sampleEnv { sampleResponse with contentLength := [] })
              ++ "` - could not find file length using HEAD request".toList))),
          sampleFS, []⟩ :=
  download_missing_length sampleEnv sampleFS { sampleResponse with contentLength := [] } rfl rfl

/-! ## `progress` -/

/-- The wrap-around does nothing inside the `int64` range. -/
theorem wrap64_of_range {x : Int} (h1 : -2 ^ 63 ≤ x) (h2 : x < 2 ^ 63) : wrap64 x = x := by
  unfold wrap64
  have : (x + 2 ^ 63) % 2 ^ 64 = x + 2 ^ 63 := Int.emod_eq_of_lt (by omega) (by omega)
  omega

/-- The wrap-around lands in the `int64` range. -/
theorem wrap64_range (x : Int) : -2 ^ 63 ≤ wrap64 x ∧ wrap64 x < 2 ^ 63 := by
  unfold wrap64
  have h1 : 0 ≤ (x + 2 ^ 63) % 2 ^ 64 := Int.emod_nonneg _ (by norm_num)
  have h2 : (x + 2 ^ 63) % 2 ^ 64 < 2 ^ 64 := Int.emod_lt_of_pos _ (by norm_num)
  constructor <;> omega

/-- The fill count is never negative, whatever the argument. -/
theorem equalses_nonneg (p : Int) : 0 ≤ equalses p := by
  unfold equalses
  simp only
  split <;> omega

/-- The fill count is an `int64`. -/
theorem equalses_lt (p : Int) : equalses p < 2 ^ 63 := by
  unfold equalses
  simp only
  split
  · norm_num
  · exact (wrap64_range _).2

/-- The blank count is never negative, whatever the argument. -/
theorem spaces_nonneg (p : Int) : 0 ≤ spaces p := by
  unfold spaces
  simp only
  split <;> omega

/-- The blank count is at most 38, whatever the argument. -/
theorem spaces_le (p : Int) : spaces p ≤ 38 := by
  have h1 := equalses_nonneg p
  have h2 := equalses_lt p
  unfold spaces
  rw [wrap64_of_range (by omega) (by omega)]
  simp only
  split <;> omega

/-- Neither call of `strings.Repeat` in `progress` receives a negative count, so
`progress` returns whenever its fill can be allocated, and its result is the
fill, the marker and the blanks. -/
theorem progress_eq (p : Int) (hfill : equalses p ≤ (maxAlloc : Int)) :
    progress p = some (List.replicate (equalses p).toNat '=' ++
      '>' :: List.replicate (spaces p).toNat ' ') := by
  have h1 := equalses_nonneg p
  have h2 := spaces_nonneg p
  have h3 := spaces_le p
  have h4 : ¬ spaces p > (maxAlloc : Int) := by
    unfold maxAlloc
    omega
  unfold progress stringsRepeat
  rw [if_neg (not_lt.mpr h1), if_neg (not_lt.mpr h2), if_neg (not_lt.mpr hfill), if_neg h4]

/-- A fill count too large to allocate makes `progress` panic. -/
theorem progress_panic (p : Int) (hfill : (maxAlloc : Int) < equalses p) :
    progress p = none := by
  have h1 := equalses_nonneg p
  unfold progress stringsRepeat
  rw [if_neg (not_lt.mpr h1), if_pos hfill]

/-- An argument of at most 100 that does not overflow the product gives a fill
count of at most 38. -/
theorem equalses_le_of_le (p : Int) (hlo : -2 ^ 63 ≤ p * 38) (hhi : p ≤ 100) :
    equalses p ≤ 38 := by
  unfold equalses quo64
  rw [wrap64_of_range (x := p * 38) (by omega) (by omega)]
  by_cases hp : p < 0
  · have h3 : Int.tdiv (p * 38) 100 = -((-(p * 38)) / 100) := by
      rw [← Int.tdiv_eq_ediv (by omega) (by norm_num), Int.neg_tdiv, neg_neg]
    have h4 : 0 ≤ (-(p * 38)) / 100 := Int.ediv_nonneg (by omega) (by norm_num)
    have h5 : (-(p * 38)) / 100 ≤ -(p * 38) := Int.ediv_le_self _ (by omega)
    rw [h3, wrap64_of_range (by omega) (by omega)]
    simp only
    split <;> omega
  · have h3 : Int.tdiv (p * 38) 100 = (p * 38) / 100 :=
      Int.tdiv_eq_ediv (by omega) (by norm_num)
    rw [h3, wrap64_of_range (by omega) (by omega)]
    simp only
    split <;> omega

/-- The fill count on the range where no operation overflows. -/
theorem equalses_small {p : Int} (h1 : -100 ≤ p) (h2 : p ≤ 200) :
    equalses p = if p < 0 then 0 else p * 38 / 100 := by
  unfold equalses quo64
  rw [wrap64_of_range (x := p * 38) (by omega) (by omega)]
  by_cases hp : p < 0
  · have h3 : Int.tdiv (p * 38) 100 = -((-(p * 38)) / 100) := by
      rw [← Int.tdiv_eq_ediv (by omega) (by norm_num), Int.neg_tdiv, neg_neg]
    have h4 : 0 ≤ (-(p * 38)) / 100 := Int.ediv_nonneg (by omega) (by norm_num)
    have h5 : (-(p * 38)) / 100 ≤ 38 := by omega
    rw [h3, wrap64_of_range (by omega) (by omega)]
    simp only [hp, if_true]
    split <;> omega
  · have h3 : Int.tdiv (p * 38) 100 = (p * 38) / 100 :=
      Int.tdiv_eq_ediv (by omega) (by norm_num)
    rw [h3, wrap64_of_range (by omega) (by omega)]
    simp only [hp, if_false]
    split <;> omega

/-- C5 as stated fails at 200 percent: the bar has 76 fill characters and 77
characters in all. -/
theorem progress_200 :
    equalses 200 = 76 ∧ spaces 200 = 0 ∧
    progress 200 = some (List.replicate 76 '=' ++ ['>']) ∧
    (List.replicate 76 '=' ++ ['>']).length = 77 := by
  decide

/-- C5, amended. For every percent from -100 to 200 neither repeat count is
negative and the bar is the fill, one marker and the blanks.  Up to 102 percent
the fill is at most 38 and fill and blanks add up to 38, so the bar has 39
characters; from 103 percent on the fill is `percent * 38 / 100`, which exceeds
38, and there are no blanks. -/
theorem progress_bounds (p : Int) (hlo : -100 ≤ p) (hhi : p ≤ 200) :
    0 ≤ equalses p ∧ 0 ≤ spaces p ∧
    progress p = some (List.replicate (equalses p).toNat '=' ++
      '>' :: List.replicate (spaces p).toNat ' ') ∧
    (p ≤ 102 → equalses p ≤ 38 ∧ equalses p + spaces p = 38 ∧
      ∃ bar, progress p = some bar ∧ bar.length = 39) ∧
    (103 ≤ p → equalses p = p * 38 / 100 ∧ 38 < equalses p ∧ spaces p = 0) := by
  have he := equalses_small hlo hhi
  have hfill : equalses p ≤ (maxAlloc : Int) := by
    rw [he]
    unfold maxAlloc
    split <;> omega
  refine ⟨equalses_nonneg p, spaces_nonneg p, progress_eq p hfill, ?_, ?_⟩
  · intro h
    have h38 : equalses p ≤ 38 := by
      rw [he]; split <;> omega
    have h0 := equalses_nonneg p
    have hs : spaces p = 38 - equalses p := by
      unfold spaces
      rw [wrap64_of_range (by omega) (by omega)]
      simp only
      split <;> omega
    refine ⟨h38, by omega, _, progress_eq p hfill, ?_⟩
    simp only [List.length_append, List.length_cons, List.length_replicate]
    omega
  · intro h
    have h1 : equalses p = p * 38 / 100 := by
      rw [he]; split <;> omega
    have h38 : 38 < equalses p := by omega
    have h2 : equalses p ≤ 76 := by omega
    refine ⟨h1, h38, ?_⟩
    unfold spaces
    rw [wrap64_of_range (by omega) (by omega)]
    simp only
    split <;> omega

/-- Witness of the amended C5, at 50 percent. -/
theorem progress_bounds_witness :
    0 ≤ equalses 50 ∧ 0 ≤ spaces 50 ∧
    progress 50 = some (List.replicate (equalses 50).toNat '=' ++
      '>' :: List.replicate (spaces 50).toNat ' ') ∧
    ((50 : Int) ≤ 102 → equalses 50 ≤ 38 ∧ equalses 50 + spaces 50 = 38 ∧
      ∃ bar, progress 50 = some bar ∧ bar.length = 39) ∧
    ((103 : Int) ≤ 50 → equalses 50 = 50 * 38 / 100 ∧ 38 < equalses 50 ∧ spaces 50 = 0) :=
  progress_bounds 50 (by decide) (by decide)

/-! ## `byteUnitStr` -/

/-- Below `10 ^ 15` the loop of `byteUnitStr` stops at the first `k` with
`n < 1000 ^ (k + 1)`: the size is `n / 1000 ^ k` and the unit is `byteUnits[k]`,
one of B, KB, MB, GB, TB. -/
theorem byteUnitParts_below (n : Int) (k : Nat) (hk : k < 5)
    (hlo : k = 0 ∨ (1000 : Int) ^ k ≤ n) (hhi : n < 1000 ^ (k + 1)) :
    byteUnitParts n = (⟨n, 1000 ^ k⟩, byteUnits.getD k []) := by
  simp only [byteUnitParts, byteUnits, List.length_cons, List.length_nil, List.range',
    byteUnitLoop, Size.lt1000, Size.div1000, decide_eq_true_eq]
  interval_cases k <;> norm_num at hlo hhi ⊢ <;> (repeat' split) <;> first
    | omega
    | rfl

/-- From `10 ^ 15` on the loop of `byteUnitStr` runs through its five iterations
without assigning `unit`: the size is `n / 1000 ^ 5` and the unit is empty. -/
theorem byteUnitParts_above (n : Int) (h : 10 ^ 15 ≤ n) :
    byteUnitParts n = (⟨n, 1000 ^ 5⟩, []) := by
  simp only [byteUnitParts, byteUnits, List.length_cons, List.length_nil, List.range',
    byteUnitLoop, Size.lt1000, Size.div1000, decide_eq_true_eq]
  norm_num at h ⊢
  (repeat' split) <;> first
    | omega
    | rfl

/-- C6, at the failing input `10 ^ 15`. The scaled value `10 ^ 15 / 1000 ^ 5` is 1,
which is below 1000, and the unit of index 5 in the table is PB; the code leaves
the unit empty, so the string it builds ends with the blank that follows the
number.  The three values of the claim, 999, 1000 and 1500000, get the units B,
KB and MB. -/
theorem byteUnitStr_petabyte :
    byteUnits.getD 5 [] = "PB".toList ∧
    byteUnitParts (10 ^ 15) = (⟨10 ^ 15, 1000 ^ 5⟩, []) ∧
    (∀ fmt3g : Size → GoString,
      byteUnitStr fmt3g (10 ^ 15) = fmt3g ⟨10 ^ 15, 1000 ^ 5⟩ ++ " ".toList) ∧
    byteUnitParts 999 = (⟨999, 1⟩, "B".toList) ∧
    byteUnitParts 1000 = (⟨1000, 1000⟩, "KB".toList) ∧
    byteUnitParts 1500000 = (⟨1500000, 1000000⟩, "MB".toList) := by
  refine ⟨by decide, by decide, ?_, by decide, by decide, by decide⟩
  intro fmt3g
  have h : byteUnitParts (10 ^ 15) = (⟨10 ^ 15, 1000 ^ 5⟩, []) := by decide
  unfold byteUnitStr
  rw [h]
  rfl

/-! ## `drawProgress` -/

/-- With a negative expected length and a total whose products do not overflow, the
percentage is at most 0 and its product by 38 does not overflow. -/
theorem percents_negative (total length : Int) (h0 : 0 ≤ total)
    (hb : 3800 * total < 2 ^ 63) (h : length < 0) :
    quo64 (wrap64 (100 * total)) length ≤ 0 ∧
      -2 ^ 63 ≤ quo64 (wrap64 (100 * total)) length * 38 := by
  unfold quo64
  rw [wrap64_of_range (x := 100 * total) (by omega) (by omega)]
  have e : Int.tdiv (100 * total) length = -((100 * total) / (-length)) := by
    rw [← Int.tdiv_eq_ediv (by omega) (by omega), Int.tdiv_neg, neg_neg]
  have h1 : 0 ≤ (100 * total) / (-length) := Int.ediv_nonneg (by omega) (by omega)
  have h2 : (100 * total) / (-length) ≤ 100 * total := Int.ediv_le_self _ (by omega)
  rw [e, wrap64_of_range (by omega) (by omega)]
  constructor <;> omega

/-- With an expected length of at least 1, a total from 0 to that length and no
overflow of `100 * total`, the percentage is the floor of `100 * total / length`
and lies between 0 and 100. -/
theorem percents_positive (total length : Int) (h : 1 ≤ length) (h0 : 0 ≤ total)
    (hb : 100 * total < 2 ^ 63) :
    quo64 (wrap64 (100 * total)) length = 100 * total / length ∧
      0 ≤ 100 * total / length ∧ (total ≤ length → 100 * total / length ≤ 100) := by
  have h2 : 0 ≤ 100 * total / length := Int.ediv_nonneg (by omega) (by omega)
  have h3 : 100 * total / length ≤ 100 * total := Int.ediv_le_self _ (by omega)
  refine ⟨?_, h2, ?_⟩
  · unfold quo64
    rw [wrap64_of_range (x := 100 * total) (by omega) (by omega),
      Int.tdiv_eq_ediv (by omega) (by omega)]
    exact wrap64_of_range (by omega) (by omega)
  · intro hfit
    exact Int.ediv_le_of_le_mul (by omega) (by omega)

/-- A negative expected length gives the unknown-length form, for every total
from 0 on whose products do not overflow. -/
theorem drawProgress_negative (fmt3g : Size → GoString) (total length : Int)
    (h0 : 0 ≤ total) (hb : 3800 * total < 2 ^ 63) (h : length < 0) :
    drawProgress fmt3g total length = .ok (unknownLine total) := by
  obtain ⟨h1, h2⟩ := percents_negative total length h0 hb h
  have hfill : equalses (quo64 (wrap64 (100 * total)) length) ≤ (maxAlloc : Int) := by
    have := equalses_le_of_le _ h2 (by omega)
    unfold maxAlloc
    omega
  unfold drawProgress
  rw [if_neg (by omega)]
  simp only [progress_eq _ hfill]
  rw [if_pos (by omega)]

/-- An expected length of at least 1 gives the percentage form, for every total
from 0 to that length whose product by 100 does not overflow; the percentage is
the floor of `100 * total / length`. -/
theorem drawProgress_positive (fmt3g : Size → GoString) (total length : Int)
    (h : 1 ≤ length) (h0 : 0 ≤ total) (hfit : total ≤ length)
    (hb : 100 * total < 2 ^ 63) :
    ∃ bar, progress (100 * total / length) = some bar ∧
      drawProgress fmt3g total length
        = .ok (percentLine (100 * total / length) bar (byteUnitStr fmt3g total)) := by
  obtain ⟨h1, h2, h3⟩ := percents_positive total length h h0 hb
  have hfill : equalses (100 * total / length) ≤ (maxAlloc : Int) := by
    have := equalses_le_of_le _ (by omega) (h3 hfit)
    unfold maxAlloc
    omega
  refine ⟨_, progress_eq _ hfill, ?_⟩
  unfold drawProgress
  rw [if_neg (by omega)]
  simp only [h1, progress_eq _ hfill]
  rw [if_neg (by omega)]

/-- A total far beyond the expected length makes `drawProgress` panic inside
`strings.Repeat`: here ten terabytes against an expected length of 1, a fill of
`3.8 * 10 ^ 14` bytes. -/
theorem drawProgress_repeat_panic (fmt3g : Size → GoString) :
    drawProgress fmt3g 10000000000000 1 = .error .stringsRepeat := by
  have h1 : wrap64 (100 * 10000000000000) = 1000000000000000 := by
    apply wrap64_of_range <;> norm_num
  have h2 : quo64 1000000000000000 1 = 1000000000000000 := by
    unfold quo64
    rw [Int.tdiv_one]
    apply wrap64_of_range <;> norm_num
  have h3 : equalses 1000000000000000 = 380000000000000 := by
    unfold equalses quo64
    rw [wrap64_of_range (x := 1000000000000000 * 38) (by norm_num) (by norm_num)]
    have : Int.tdiv (1000000000000000 * 38) 100 = 380000000000000 := by
      rw [Int.tdiv_eq_ediv (by norm_num) (by norm_num)]
      norm_num
    rw [this, wrap64_of_range (by norm_num) (by norm_num)]
    norm_num
  have hp : progress 1000000000000000 = none :=
    progress_panic _ (by rw [h3]; unfold maxAlloc; norm_num)
  unfold drawProgress
  rw [if_neg (by norm_num)]
  simp only [h1, h2, hp]

/-- C7, at the failing input: an expected length of 0. The division
`(100 * total) / length` is the first statement of `drawProgress`, ahead of the
test `length < 1`, so the call panics for every `total` instead of writing the
unknown-length form.  `download` reaches it with a response that declares
`Content-Length: 0` and has an empty body. -/
theorem drawProgress_zero :
    (∀ (fmt3g : Size → GoString) (total : Int),
      drawProgress fmt3g total 0 = .error .divideByZero) ∧
    (download sampleEnv sampleFS
      (.ok { sampleResponse with contentLength := "0".toList, body := [] })).outcome
      = .panicked .divideByZero := by
  refine ⟨fun _ _ => rfl, by decide⟩

/-! ## The source of the file name -/

/-- Without a `Content-Disposition` value the name is the path of the URL. -/
theorem pickFilename_absent (env : Env) (response : Response)
    (h : response.contentDisposition = []) :
    pickFilename env response = response.urlPath := by
  simp [pickFilename, h]

/-- With a `Content-Disposition` value that does not parse the name is the path of
the URL. -/
theorem pickFilename_unparsed (env : Env) (response : Response) (e : GoError)
    (h : env.parseMediaType response.contentDisposition = .error e) :
    pickFilename env response = response.urlPath := by
  unfold pickFilename
  split
  · rw [h]
  · rfl

/-- With a `Content-Disposition` value that parses and has a `filename` parameter
the name is the value of that parameter. -/
theorem pickFilename_param (env : Env) (response : Response) (mt v : GoString)
    (params : List (GoString × GoString)) (hcd : response.contentDisposition ≠ [])
    (h : env.parseMediaType response.contentDisposition = .ok (mt, params))
    (hv : params.lookup "filename".toList = some v) :
    pickFilename env response = v := by
  unfold pickFilename
  rw [if_pos hcd, h]
  show mapGet params "filename".toList = v
  unfold mapGet
  rw [hv]
  rfl

/-- C8, at the failing inputs: a `Content-Disposition` value that parses but has no
`filename` parameter. The name taken is the empty string, the zero value of the
map lookup, not the path of the URL; sanitized it is `/`. -/
theorem pickFilename_no_param (env : Env) (response : Response) (mt : GoString)
    (params : List (GoString × GoString)) (hcd : response.contentDisposition ≠ [])
    (h : env.parseMediaType response.contentDisposition = .ok (mt, params))
    (hv : params.lookup "filename".toList = none) :
    pickFilename env response = [] ∧ sanitize (pickFilename env response) = "/".toList := by
  have h1 : pickFilename env response = [] := by
    unfold pickFilename
    rw [if_pos hcd, h]
    show mapGet params "filename".toList = []
    unfold mapGet
    rw [hv]
    rfl
  rw [h1]
  exact ⟨rfl, by decide⟩

/-- Witness of C8: the header value `attachment` with the URL path
`/a/b/c/report.pdf`. -/
theorem pickFilename_no_param_witness :
    ({ sampleResponse with contentDisposition := "attachment".toList } : Response).urlPath
      = "/a/b/c/report.pdf".toList ∧
    pickFilename sampleEnv { sampleResponse with contentDisposition := "attachment".toList } = [] ∧
    sanitize (pickFilename sampleEnv
      { sampleResponse with contentDisposition := "attachment".toList }) = "/".toList :=
  ⟨rfl, pickFilename_no_param sampleEnv
    { sampleResponse with contentDisposition := "attachment".toList } "attachment".toList []
    (by decide) (by decide) (by decide)⟩

/-! ## Overwriting an existing file -/

/-- C9, at the failing input: the working directory holds `report.pdf` with the
nine bytes `OLDOLDOLD` and the body is the three bytes `new`. The call returns
`nil` and the file holds `newOLDOLD`: the file is opened without `O_TRUNC`, so
the six last bytes of the old content stay. -/
theorem download_keeps_tail :
    sampleFS "report.pdf".toList = some (.file "OLDOLDOLD".toList) ∧
    (download sampleEnv sampleFS (.ok sampleResponse)).outcome = .returned none ∧
    (download sampleEnv sampleFS (.ok sampleResponse)).fs "report.pdf".toList
      = some (.file "newOLDOLD".toList) := by
  decide

/-! ## The derivation of the expected length -/

/-- The loop of `ParseUint` gives a digit its value. -/
theorem digitVal_of_digit {c : Char} (h : isDecDigit c = true) :
    digitVal c = some (c.toNat - 48) := by
  unfold isDecDigit at h
  unfold digitVal
  rw [if_pos (of_decide_eq_true h)]

/-- A byte whose value in the loop of `ParseUint` is below ten is a digit. -/
theorem digit_of_digitVal {c : Char} {d : Nat} (h : digitVal c = some d) (hd : d < 10) :
    isDecDigit c = true ∧ d = c.toNat - 48 := by
  unfold digitVal at h
  unfold isDecDigit
  split at h
  · rename_i hc
    injection h with h
    exact ⟨decide_eq_true hc, h.symm⟩
  · split at h
    · injection h with h
      omega
    · exact absurd h (by simp)

/-- Reading more digits never lowers the value read so far. -/
theorem le_foldl_digits (ds : GoString) (n : Nat) :
    n ≤ ds.foldl (fun n c => n * 10 + (c.toNat - 48)) n := by
  induction ds generalizing n with
  | nil => exact Nat.le_refl _
  | cons c cs ih =>
    simp only [List.foldl_cons]
    exact Nat.le_trans (by omega) (ih _)

/-- On a string of digits the loop of `ParseUint` returns the value read when it
is at most `maxVal`, and the range error otherwise. -/
theorem parseUintLoop_digits (cutoff maxVal : Nat) (h1 : maxVal < cutoff)
    (h2 : maxVal * 10 + 9 < 2 ^ 64) (ds : GoString) (n : Nat)
    (hall : ∀ c ∈ ds, isDecDigit c = true) (hn : n ≤ maxVal) :
    parseUintLoop 10 cutoff maxVal ds n
      = if ds.foldl (fun n c => n * 10 + (c.toNat - 48)) n ≤ maxVal
        then (ds.foldl (fun n c => n * 10 + (c.toNat - 48)) n, none)
        else (maxVal, some .ErrRange) := by
  induction ds generalizing n with
  | nil => simp [parseUintLoop, hn]
  | cons c cs ih =>
    have hc : isDecDigit c = true := hall c (List.mem_cons_self _ _)
    have hd : c.toNat - 48 < 10 := by
      have := of_decide_eq_true hc
      omega
    have e1 : n * 10 % 2 ^ 64 = n * 10 := Nat.mod_eq_of_lt (by omega)
    have e2 : (n * 10 + (c.toNat - 48)) % 2 ^ 64 = n * 10 + (c.toNat - 48) :=
      Nat.mod_eq_of_lt (by omega)
    simp only [parseUintLoop, digitVal_of_digit hc, List.foldl_cons]
    rw [if_neg (by omega), if_neg (by omega), e1, e2]
    by_cases hbig : n * 10 + (c.toNat - 48) > maxVal
    · have := le_foldl_digits cs (n * 10 + (c.toNat - 48))
      rw [if_pos (Or.inr hbig), if_neg (by omega)]
    · rw [if_neg (by omega)]
      exact ih _ (fun x hx => hall x (List.mem_cons_of_mem _ hx)) (by omega)

/-- When the loop of `ParseUint` returns without an error, the string was made of
digits and the result is the value read. -/
theorem parseUintLoop_ok (cutoff maxVal : Nat) (h2 : maxVal * 10 + 9 < 2 ^ 64)
    (ds : GoString) (n v : Nat) (hn : n ≤ maxVal)
    (h : parseUintLoop 10 cutoff maxVal ds n = (v, none)) :
    (∀ c ∈ ds, isDecDigit c = true) ∧
      v = ds.foldl (fun n c => n * 10 + (c.toNat - 48)) n := by
  induction ds generalizing n with
  | nil =>
    simp only [parseUintLoop, Prod.mk.injEq, and_true] at h
    simp [h]
  | cons c cs ih =>
    unfold parseUintLoop at h
    split at h
    · simp at h
    · rename_i d hd
      split at h
      · simp at h
      · rename_i hlt
        split at h
        · simp at h
        · simp only at h
          split at h
          · simp at h
          · rename_i hno
            have hdig := digit_of_digitVal hd (by omega)
            have e1 : n * 10 % 2 ^ 64 = n * 10 := Nat.mod_eq_of_lt (by omega)
            have e2 : (n * 10 + d) % 2 ^ 64 = n * 10 + d := Nat.mod_eq_of_lt (by omega)
            rw [e1, e2] at h hno
            have := ih (n * 10 + d) (by omega) h
            refine ⟨?_, ?_⟩
            · intro x hx
              rcases List.mem_cons.1 hx with rfl | hx
              · exact hdig.1
              · exact this.1 x hx
            · rw [List.foldl_cons, ← hdig.2]
              exact this.2

/-- The range error of the loop of `ParseUint` comes with the value `maxVal`. -/
theorem parseUintLoop_range (base cutoff maxVal : Nat) (ds : GoString) (n v : Nat)
    (h : parseUintLoop base cutoff maxVal ds n = (v, some .ErrRange)) : v = maxVal := by
  induction ds generalizing n with
  | nil => simp [parseUintLoop] at h
  | cons c cs ih =>
    unfold parseUintLoop at h
    split at h
    · simp at h
    · split at h
      · simp at h
      · split at h
        · simp only [Prod.mk.injEq, and_true] at h
          exact h.symm
        · simp only at h
          split at h
          · simp only [Prod.mk.injEq, and_true] at h
            exact h.symm
          · exact ih _ h

/-- The function `ParseUint` at 32 bits on a non-empty string of digits. -/
theorem ParseUint_digits (ds : GoString) (hne : ds ≠ [])
    (hall : ∀ c ∈ ds, isDecDigit c = true) :
    ParseUint ds 32 = if decValue ds ≤ 4294967295 then (decValue ds, none)
      else (4294967295, some .ErrRange) := by
  unfold ParseUint
  rw [if_neg hne]
  exact parseUintLoop_digits _ _ (by norm_num) (by norm_num) ds 0 hall (by norm_num)

/-- When `ParseUint` at 32 bits returns without an error, its argument is a
non-empty string of digits and the result is its value. -/
theorem ParseUint_ok (ds : GoString) (v : Nat) (h : ParseUint ds 32 = (v, none)) :
    ds ≠ [] ∧ (∀ c ∈ ds, isDecDigit c = true) ∧ v = decValue ds := by
  unfold ParseUint at h
  split at h
  · simp at h
  · rename_i hne
    exact ⟨hne, parseUintLoop_ok _ _ (by norm_num) ds 0 v (by norm_num) h⟩

/-- The range error of `ParseUint` at 32 bits comes with the value `2 ^ 32 - 1`. -/
theorem ParseUint_range (ds : GoString) (v : Nat)
    (h : ParseUint ds 32 = (v, some .ErrRange)) : v = 4294967295 := by
  unfold ParseUint at h
  split at h
  · simp at h
  · exact parseUintLoop_range _ _ _ ds 0 v h

/-- When `ParseInt` at 32 bits returns without an error, its argument is an
optional sign followed by digits and the result is the integer it denotes. -/
theorem ParseInt_ok (s : GoString) (n : Int) (h : ParseInt s 32 = (n, none)) :
    signedDecimal s = some n := by
  unfold ParseInt at h
  split at h
  · simp at h
  · simp only at h
    split at h
    · simp at h
    · rename_i un e hnot heq
      have hcut : (2 : Nat) ^ (32 - 1) = 2147483648 := by norm_num
      rw [hcut] at h
      cases e with
      | some k =>
        cases k with
        | ErrSyn => exact absurd rfl hnot
        | ErrRange =>
          have hv := ParseUint_range _ _ heq
          subst hv
          by_cases hneg : s.head? = some '-' <;> simp [hneg] at h
      | none =>
        obtain ⟨hne, hall, hv⟩ := ParseUint_ok _ _ heq
        unfold signedDecimal
        simp only
        rw [if_pos ⟨hne, List.all_eq_true.2 hall⟩, ← hv]
        by_cases hneg : s.head? = some '-'
        · simp only [hneg, decide_True, Bool.not_true, Bool.false_eq_true, false_and,
            if_false, true_and, if_true] at h ⊢
          split at h
          · simp at h
          · rename_i hle
            simp only [Prod.mk.injEq, and_true] at h
            rw [← h, wrap64_of_range (x := (un : Int)) (by omega) (by omega)]
            rw [wrap64_of_range (by omega) (by omega)]
        · simp only [hneg, decide_False, Bool.not_false, true_and, Bool.false_eq_true,
            false_and, if_false] at h ⊢
          split at h
          · simp at h
          · rename_i hle
            simp only [Prod.mk.injEq, and_true] at h
            rw [← h, wrap64_of_range (x := (un : Int)) (by omega) (by omega)]

/-- On an optional sign followed by digits that denote an integer of the `int32`
range, `ParseInt` at 32 bits returns that integer without an error. -/
theorem ParseInt_signedDecimal (s : GoString) (v : Int) (h : signedDecimal s = some v)
    (hlo : -2 ^ 31 ≤ v) (hhi : v < 2 ^ 31) : ParseInt s 32 = (v, none) := by
  unfold signedDecimal at h
  unfold ParseInt
  generalize hds : (if s.head? = some '+' ∨ s.head? = some '-' then s.tail else s) = ds at h
  simp only at h
  by_cases hok : ds ≠ [] ∧ ds.all isDecDigit = true
  · rw [if_pos hok] at h
    obtain ⟨hne, hall⟩ := hok
    have hs : s ≠ [] := by
      intro hs
      subst hs
      simp at hds
      exact hne hds
    have hU := ParseUint_digits _ hne (List.all_eq_true.1 hall)
    injection h with h
    rw [if_neg hs]
    simp only [hds]
    have hcut : (2 : Nat) ^ (32 - 1) = 2147483648 := by norm_num
    by_cases hneg : s.head? = some '-'
    · rw [if_pos hneg] at h
      rw [if_pos (by omega)] at hU
      rw [hU]
      simp only [hcut, hneg, decide_True, Bool.not_true, Bool.false_eq_true, false_and,
        if_false, true_and, if_true]
      rw [if_neg (by omega), wrap64_of_range (x := ((decValue ds : Nat) : Int))
        (by omega) (by omega), wrap64_of_range (by omega) (by omega), h]
    · rw [if_neg hneg] at h
      rw [if_pos (by omega)] at hU
      rw [hU]
      simp only [hcut, hneg, decide_False, Bool.not_false, true_and, Bool.false_eq_true,
        false_and, if_false]
      rw [if_neg (by omega), wrap64_of_range (by omega) (by omega), h]
  · rw [if_neg hok] at h
    exact absurd h (by simp)

/-- When `ParseInt` at 32 bits returns without an error, the result is in the
`int32` range. -/
theorem ParseInt_range (s : GoString) (n : Int) (h : ParseInt s 32 = (n, none)) :
    -2 ^ 31 ≤ n ∧ n < 2 ^ 31 := by
  unfold ParseInt at h
  split at h
  · simp at h
  · simp only at h
    split at h
    · simp at h
    · rename_i un e hnot heq
      have hcut : (2 : Nat) ^ (32 - 1) = 2147483648 := by norm_num
      rw [hcut] at h
      by_cases hneg : s.head? = some '-'
      · simp only [hneg, decide_True, Bool.not_true, Bool.false_eq_true, false_and,
          if_false, true_and, if_true] at h
        split at h
        · simp at h
        · rename_i hle
          simp only [Prod.mk.injEq, and_true] at h
          rw [← h, wrap64_of_range (x := (un : Int)) (by omega) (by omega),
            wrap64_of_range (by omega) (by omega)]
          constructor <;> omega
      · simp only [hneg, decide_False, Bool.not_false, true_and, Bool.false_eq_true,
          false_and, if_false] at h
        split at h
        · simp at h
        · rename_i hle
          simp only [Prod.mk.injEq, and_true] at h
          rw [← h, wrap64_of_range (x := (un : Int)) (by omega) (by omega)]
          constructor <;> omega

/-- A string of digits does not start with a sign. -/
theorem head_of_digits (s : GoString) (hall : ∀ c ∈ s, isDecDigit c = true) :
    ¬ (s.head? = some '+' ∨ s.head? = some '-') := by
  cases s with
  | nil => simp
  | cons c cs =>
    have hc := hall c (List.mem_cons_self _ _)
    simp only [List.head?_cons, Option.some.injEq]
    rintro (h | h) <;> rw [h] at hc <;> exact absurd hc (by decide)

/-- On a non-empty string of digits `ParseInt` at 32 bits returns the value of
the string when it is below `2 ^ 31`, and the range error otherwise. -/
theorem ParseInt_digits (s : GoString) (hne : s ≠ [])
    (hall : ∀ c ∈ s, isDecDigit c = true) :
    ParseInt s 32 = if decValue s < 2 ^ 31 then ((decValue s : Int), none)
      else (2 ^ 31 - 1, some (.numError "ParseInt".toList s .ErrRange)) := by
  have hsign := head_of_digits s hall
  have hneg : ¬ s.head? = some '-' := fun h => hsign (Or.inr h)
  have hU := ParseUint_digits s hne hall
  have hcut : (2 : Nat) ^ (32 - 1) = 2147483648 := by norm_num
  have hs1 : (if s.head? = some '+' ∨ s.head? = some '-' then s.tail else s) = s :=
    if_neg hsign
  unfold ParseInt
  rw [if_neg hne]
  simp only [hs1]
  simp only [hneg, decide_False, Bool.not_false, true_and, Bool.false_eq_true,
    false_and, if_false, hcut]
  by_cases h32 : decValue s ≤ 4294967295
  · rw [if_pos h32] at hU
    rw [hU]
    simp only
    by_cases h31 : decValue s < 2147483648
    · rw [if_neg (by omega), if_pos h31, wrap64_of_range (by omega) (by omega)]
    · rw [if_pos (by omega), if_neg h31]
      norm_num
  · rw [if_neg h32] at hU
    rw [hU]
    simp only
    rw [if_pos (by omega), if_neg (by omega)]
    norm_num

/-- Every error returned by `ParseInt` is a `*strconv.NumError` naming the
function and the string. -/
theorem ParseInt_error (s : GoString) (bitSize : Nat) (v : Int) (e : GoError)
    (h : ParseInt s bitSize = (v, some e)) :
    ∃ k, e = .numError "ParseInt".toList s k := by
  unfold ParseInt at h
  split at h
  · simp only [Prod.mk.injEq, Option.some.injEq] at h
    exact ⟨_, h.2.symm⟩
  · simp only at h
    split at h
    · simp only [Prod.mk.injEq, Option.some.injEq] at h
      exact ⟨_, h.2.symm⟩
    · split at h
      · simp only [Prod.mk.injEq, Option.some.injEq] at h
        exact ⟨_, h.2.symm⟩
      · split at h
        · simp only [Prod.mk.injEq, Option.some.injEq] at h
          exact ⟨_, h.2.symm⟩
        · simp at h

/-- With status 200 and a non-empty `Content-Length` value that `ParseInt`
accepts, `download` goes on to open the output file with the parsed length. -/
theorem download_parsed (env : Env) (fs : FS) (response : Response) (v : Int)
    (hstatus : response.StatusCode = 200) (hne : response.contentLength ≠ [])
    (h : ParseInt response.contentLength 32 = (v, none)) :
    download env fs (.ok response)
      = transfer env fs (sanitize (pickFilename env response)) v response.body := by
  simp only [download, afterStatus, hstatus, ne_eq, not_true_eq_false, if_false]
  rw [if_pos hne, h]

/-- With status 200 and a non-empty `Content-Length` value that `ParseInt`
rejects, `download` returns the error of `ParseInt`; the file system is
unchanged and nothing is written to `errPipe`. -/
theorem download_unparsed (env : Env) (fs : FS) (response : Response) (v : Int)
    (e : GoError) (hstatus : response.StatusCode = 200)
    (hne : response.contentLength ≠ [])
    (h : ParseInt response.contentLength 32 = (v, some e)) :
    download env fs (.ok response) = ⟨.returned (some e), fs, []⟩ := by
  simp only [download, afterStatus, hstatus, ne_eq, not_true_eq_false, if_false]
  rw [if_pos hne, h]

/-- The parse is signed: the header value `-5` gives the expected length -5, with
which `download` goes on to open the output file. -/
theorem parseInt_negative :
    ParseInt "-5".toList 32 = (-5, none) ∧
    download sampleEnv sampleFS (.ok { sampleResponse with contentLength := "-5".toList })
      = transfer sampleEnv sampleFS "report.pdf".toList (-5) sampleResponse.body :=
  ⟨by decide,
   download_parsed sampleEnv sampleFS { sampleResponse with contentLength := "-5".toList } (-5)
     rfl (by decide) (by decide)⟩

/-- C10 as stated fails at the header value `2147483648`, the size of a file of two
gibibytes: it is made of decimal digits and denotes the non-negative integer
`2 ^ 31`, yet the derivation fails with a range error, the parse being made at 32
bits, and `download` returns that error with the file system unchanged. -/
theorem parseInt_two_gib :
    "2147483648".toList.all isDecDigit = true ∧
    decValue "2147483648".toList = 2147483648 ∧
    ParseInt "2147483648".toList 32
      = (2147483647, some (.numError "ParseInt".toList "2147483648".toList .ErrRange)) ∧
    download sampleEnv sampleFS
        (.ok { sampleResponse with contentLength := "2147483648".toList })
      = ⟨.returned (some (.numError "ParseInt".toList "2147483648".toList .ErrRange)),
          sampleFS, []⟩ :=
  ⟨by decide, by decide, by decide,
   download_unparsed sampleEnv sampleFS
     { sampleResponse with contentLength := "2147483648".toList } 2147483647 _
     rfl (by decide) (by decide)⟩

/-- C10, amended. For a non-empty `Content-Length` value `s`: the derivation
succeeds with the length `n` if and only if `s` is an optional sign followed by
one or more decimal digits, `n` is the integer it denotes, and `n` lies between
`-2 ^ 31` and `2 ^ 31 - 1`; in particular a value made only of decimal digits
succeeds, with its value, exactly when that value is below `2 ^ 31`, and gives
the range error otherwise. On success `download` goes on to open the output
file with that length; in every other case `ParseInt` returns a
`*strconv.NumError` and `download` returns it with the file system unchanged,
the output file not being opened. -/
theorem download_length (s : GoString) (hs : s ≠ []) :
    (∀ n, ParseInt s 32 = (n, none) ↔
      (signedDecimal s = some n ∧ -2 ^ 31 ≤ n ∧ n < 2 ^ 31)) ∧
    ((∀ c ∈ s, isDecDigit c = true) →
      ParseInt s 32 = if decValue s < 2 ^ 31 then ((decValue s : Int), none)
        else (2 ^ 31 - 1, some (.numError "ParseInt".toList s .ErrRange))) ∧
    (∀ n, ParseInt s 32 = (n, none) →
      ∀ (env : Env) (fs : FS) (response : Response), response.StatusCode = 200 →
        response.contentLength = s →
        download env fs (.ok response)
          = transfer env fs (sanitize (pickFilename env response)) n response.body) ∧
    ((∀ n, ParseInt s 32 ≠ (n, none)) →
      ∃ v k, ParseInt s 32 = (v, some (.numError "ParseInt".toList s k)) ∧
      ∀ (env : Env) (fs : FS) (response : Response), response.StatusCode = 200 →
        response.contentLength = s →
        download env fs (.ok response)
          = ⟨.returned (some (.numError "ParseInt".toList s k)), fs, []⟩) := by
  refine ⟨fun n => ⟨fun h => ⟨ParseInt_ok s n h, ParseInt_range s n h⟩,
      fun h => ParseInt_signedDecimal s n h.1 h.2.1 h.2.2⟩,
    fun hall => ParseInt_digits s hs hall, ?_, ?_⟩
  · intro n hp env fs response hstatus hcl
    exact download_parsed env fs response n hstatus (hcl ▸ hs) (hcl ▸ hp)
  · intro hfail
    cases hres : ParseInt s 32 with
    | mk v oe =>
      cases oe with
      | none => exact absurd hres (hfail v)
      | some e =>
        obtain ⟨k, hk⟩ := ParseInt_error s 32 v e hres
        subst hk
        refine ⟨v, k, rfl, ?_⟩
        intro env fs response hstatus hcl
        exact download_unparsed env fs response v _ hstatus (hcl ▸ hs) (hcl ▸ hres)

/-- Witness of the amended C10, at the header values `42`, `4294967296` and `12a`. -/
theorem download_length_witness :
    ParseInt "42".toList 32 = (42, none) ∧
    ParseInt "4294967296".toList 32
      = (if decValue "4294967296".toList < 2 ^ 31
          then ((decValue "4294967296".toList : Int), none)
          else (2 ^ 31 - 1,
            some (.numError "ParseInt".toList "4294967296".toList .ErrRange))) ∧
    (∃ v k, ParseInt "12a".toList 32 = (v, some (.numError "ParseInt".toList "12a".toList k)) ∧
      ∀ (env : Env) (fs : FS) (response : Response), response.StatusCode = 200 →
        response.contentLength = "12a".toList →
        download env fs (.ok response)
          = ⟨.returned (some (.numError "ParseInt".toList "12a".toList k)), fs, []⟩) :=
  ⟨((download_length "42".toList (by decide)).1 42).2 (by decide),
   (download_length "4294967296".toList (by decide)).2.1 (by decide),
   (download_length "12a".toList (by decide)).2.2.2
     (fun n h =>
       have h2 : (ParseInt "12a".toList 32).2 = none := congrArg Prod.snd h
       absurd h2 (by decide))⟩

/-! ## The read/write loop -/

/-- The sum of the chunk sizes is the size of the body. -/
theorem bodySize_eq (body : List ReadResult) : bodySize body = (bodyBytes body).length := by
  induction body with
  | nil => rfl
  | cons r rest ih =>
    simp only [bodySize, bodyBytes, List.map_cons, List.sum_cons, List.flatten_cons,
      List.length_append] at ih ⊢
    rw [ih]

/-- With an expected length that is negative, or positive and not below the
total, `drawProgress` returns. -/
theorem drawProgress_ok (fmt3g : Size → GoString) (total length : Int) (h0 : 0 ≤ total)
    (hb : 3800 * total < 2 ^ 63) (hfit : length < 0 ∨ (1 ≤ length ∧ total ≤ length)) :
    ∃ line, drawProgress fmt3g total length = .ok line := by
  rcases hfit with h | ⟨h, hle⟩
  · exact ⟨_, drawProgress_negative fmt3g total length h0 hb h⟩
  · obtain ⟨bar, _, hbar⟩ := drawProgress_positive fmt3g total length h h0 hle (by omega)
    exact ⟨_, hbar⟩

/-- Writing nothing leaves the content as it is. -/
theorem writeAt_nil (content : GoString) (off : Nat) : writeAt content off [] = content := by
  simp [writeAt]

/-- The length of a file after a write inside or at the end of it. -/
theorem length_writeAt (content : GoString) (off : Nat) (data : GoString)
    (h : off ≤ content.length) : off + data.length ≤ (writeAt content off data).length := by
  simp only [writeAt, List.length_append, List.length_take, List.length_drop]
  omega

/-- Two writes in a row amount to one write of the two chunks. -/
theorem writeAt_writeAt (content : GoString) (off : Nat) (c1 c2 : GoString)
    (h : off ≤ content.length) :
    writeAt (writeAt content off c1) (off + c1.length) c2 = writeAt content off (c1 ++ c2) := by
  have hl : (List.take off content ++ c1).length = off + c1.length := by
    simp only [List.length_append, List.length_take]
    omega
  unfold writeAt
  have e1 : List.take (off + c1.length)
      (List.take off content ++ c1 ++ List.drop (off + c1.length) content)
      = List.take off content ++ c1 := by
    rw [← hl, List.take_left]
  have e2 : List.drop (off + c1.length + c2.length)
      (List.take off content ++ c1 ++ List.drop (off + c1.length) content)
      = List.drop (off + (c1 ++ c2).length) content := by
    have : off + c1.length + c2.length = (List.take off content ++ c1).length + c2.length := by
      rw [hl]
    rw [this, List.drop_append, List.drop_drop, List.length_append]
    congr 1
    omega
  rw [e1, e2]
  simp only [List.append_assoc]

/-- A write to the open output file changes the content of that file only. -/
theorem fsWrite_file (fs : FS) (name : GoString) (off : Nat) (data content : GoString)
    (h : fs name = some (.file content)) :
    fsWrite fs name off data
      = Function.update fs name (some (.file (writeAt content off data))) := by
  unfold fsWrite
  rw [h]

/-- The loop of `download` on a body read without error, from any state, when the
expected length is negative or at least the final total: it returns `nil`; the
file holds what it held, with the chunks written in order from the offset on;
one progress line is written per chunk, then the line for the final total and
the completion message. -/
theorem copyLoop_state (env : Env) (filename : GoString) (length : Int)
    (hw : ∀ i, env.writeFault i = none) (body : List ReadResult) :
    ∀ (total : Int) (i off : Nat) (fs : FS) (log : List GoString) (content : GoString),
    (∀ r ∈ body, r.data ≠ [] ∧ r.data.length ≤ 4068 ∧ (r.err = none ∨ r.err = some .EOF)) →
    0 ≤ total → 3800 * (total + (bodySize body : Int)) < 2 ^ 63 →
    (length < 0 ∨ (1 ≤ length ∧ total + (bodySize body : Int) ≤ length)) →
    fs filename = some (.file content) → off ≤ content.length →
    ∃ lines line, lines.length = body.length ∧
      drawProgress env.fmt3g (total + (bodySize body : Int)) length = .ok line ∧
      copyLoop env filename length body total i off fs log
        = ⟨.returned none,
            Function.update fs filename (some (.file (writeAt content off (bodyBytes body)))),
            log ++ lines ++ [line, completionLine filename
              (byteUnitStr env.fmt3g (total + (bodySize body : Int)))]⟩ := by
  induction body with
  | nil =>
    intro total i off fs log content _ htot hsum hfit hopen _
    simp only [bodySize, List.map_nil, List.sum_nil, Nat.cast_zero, add_zero] at hsum hfit
    obtain ⟨line, hline⟩ := drawProgress_ok env.fmt3g total length htot hsum hfit
    refine ⟨[], line, rfl, ?_, ?_⟩
    · simpa [bodySize] using hline
    · simp only [copyLoop, finish, hline, bodyBytes, bodySize, List.map_nil, List.flatten_nil,
        List.sum_nil, writeAt_nil, Nat.cast_zero, add_zero, List.append_nil]
      rw [← hopen, Function.update_eq_self]
  | cons r rest ih =>
    intro total i off fs log content hbody htot hsum hfit hopen hoff
    obtain ⟨hne, hle, herr⟩ := hbody r (List.mem_cons_self _ _)
    have hsz : bodySize (r :: rest) = r.data.length + bodySize rest := by
      simp [bodySize]
    have hby : bodyBytes (r :: rest) = r.data ++ bodyBytes rest := by
      simp [bodyBytes]
    rw [hsz] at hsum hfit
    push_cast at hsum hfit
    have hpos : 0 < r.data.length := List.length_pos.2 hne
    have htot1 : wrap64 (total + (r.data.length : Int)) = total + (r.data.length : Int) :=
      wrap64_of_range (by omega) (by omega)
    obtain ⟨l1, hl1⟩ := drawProgress_ok env.fmt3g (total + (r.data.length : Int)) length
      (by omega) (by omega) (by omega)
    have hfs1 : (Function.update fs filename (some (Node.file (writeAt content off r.data))))
        filename = some (.file (writeAt content off r.data)) := Function.update_same _ _ _
    obtain ⟨lines, line, hlines, hline, hrun⟩ :=
      ih (total + (r.data.length : Int)) (i + 1) (off + r.data.length)
        (Function.update fs filename (some (Node.file (writeAt content off r.data))))
        (log ++ [l1]) (writeAt content off r.data)
        (fun x hx => hbody x (List.mem_cons_of_mem _ hx)) (by omega) (by omega) (by omega)
        hfs1 (length_writeAt content off r.data hoff)
    refine ⟨l1 :: lines, line, by simp [hlines], ?_, ?_⟩
    · rw [hsz]
      push_cast
      rw [← add_assoc]
      exact hline
    · have hcond : ¬ (r.err ≠ none ∧ r.err ≠ some GoError.EOF) := by
        rcases herr with h | h <;> simp [h]
      unfold copyLoop
      rw [if_neg hcond, if_neg (by omega)]
      simp only [htot1]
      rw [if_neg (by omega), hw i]
      simp only [hl1, fsWrite_file fs filename off r.data content hopen]
      rw [hrun, hsz, hby, writeAt_writeAt content off r.data (bodyBytes rest) hoff,
        Function.update_idem]
      push_cast
      simp only [add_assoc, List.append_assoc, List.singleton_append, List.cons_append,
        List.nil_append]

/-- The accounting of the loop when the expected length is not 0 and not below the
size `S` of the body. Let the body be delivered by reads that each return between
1 and 4068 bytes with no error other than `io.EOF`, then end of stream; let no
write fail, let the expected length be negative or at least `S`, let the
products `100 * total` and `percents * 38` not overflow, and let the output file
be open at offset 0. Then the sum of the chunk sizes is `S`; the loop returns
`nil`; the file holds the chunks in order, that is the body, from its start
(followed by what the old content had beyond `S` bytes); and after one progress
line per chunk the last call of `drawProgress` and the completion message both
receive the total `S`. -/
theorem copyLoop_total (env : Env) (filename : GoString) (length : Int)
    (body : List ReadResult) (fs : FS) (content : GoString)
    (hbody : ∀ r ∈ body,
      r.data ≠ [] ∧ r.data.length ≤ 4068 ∧ (r.err = none ∨ r.err = some .EOF))
    (hw : ∀ i, env.writeFault i = none)
    (hfit : length < 0 ∨ (1 ≤ length ∧ ((bodyBytes body).length : Int) ≤ length))
    (hS : 3800 * ((bodyBytes body).length : Int) < 2 ^ 63)
    (hopen : fs filename = some (.file content)) :
    bodySize body = (bodyBytes body).length ∧
    ∃ lines line, lines.length = body.length ∧
      drawProgress env.fmt3g ((bodyBytes body).length : Int) length = .ok line ∧
      copyLoop env filename length body 0 0 0 fs []
        = ⟨.returned none,
            Function.update fs filename
              (some (.file (bodyBytes body ++ content.drop (bodyBytes body).length))),
            lines ++ [line, completionLine filename
              (byteUnitStr env.fmt3g ((bodyBytes body).length : Int))]⟩ := by
  have hsz := bodySize_eq body
  refine ⟨hsz, ?_⟩
  obtain ⟨lines, line, hlines, hline, hrun⟩ :=
    copyLoop_state env filename length hw body 0 0 0 fs [] content hbody
      (le_refl _) (by rw [hsz]; omega) (by rw [hsz]; omega) hopen (Nat.zero_le _)
  rw [hsz, zero_add] at hline hrun
  refine ⟨lines, line, hlines, hline, ?_⟩
  rw [hrun]
  simp [writeAt]

/-- The accounting of the loop on a body of three bytes delivered as `ne` then `w`,
written to the existing file `report.pdf` with an expected length of 3. -/
theorem copyLoop_total_sample :
    bodySize [⟨"ne".toList, none⟩, ⟨"w".toList, some .EOF⟩]
      = (bodyBytes [⟨"ne".toList, none⟩, ⟨"w".toList, some .EOF⟩]).length ∧
    ∃ lines line, lines.length = [(⟨"ne".toList, none⟩ : ReadResult), ⟨"w".toList, some .EOF⟩].length ∧
      drawProgress sampleEnv.fmt3g
        ((bodyBytes [⟨"ne".toList, none⟩, ⟨"w".toList, some .EOF⟩]).length : Int) 3 = .ok line ∧
      copyLoop sampleEnv "report.pdf".toList 3
          [⟨"ne".toList, none⟩, ⟨"w".toList, some .EOF⟩] 0 0 0 sampleFS []
        = ⟨.returned none,
            Function.update sampleFS "report.pdf".toList
              (some (.file (bodyBytes [⟨"ne".toList, none⟩, ⟨"w".toList, some .EOF⟩]
                ++ "OLDOLDOLD".toList.drop
                  (bodyBytes [⟨"ne".toList, none⟩, ⟨"w".toList, some .EOF⟩]).length))),
            lines ++ [line, completionLine "report.pdf".toList
              (byteUnitStr sampleEnv.fmt3g
                ((bodyBytes [⟨"ne".toList, none⟩, ⟨"w".toList, some .EOF⟩]).length : Int))]⟩ :=
  copyLoop_total sampleEnv "report.pdf".toList 3
    [⟨"ne".toList, none⟩, ⟨"w".toList, some .EOF⟩] sampleFS "OLDOLDOLD".toList
    (by decide) (fun _ => rfl) (by decide) (by decide) (by decide)

/-- Lines 61-91 on a body read without error, when the expected length is negative
or at least the size of the body: the call returns `nil`, and the output file
holds the body followed by whatever the old content had beyond the size of the
body (nothing when the file is new or was not longer than the body).  The old
content is never truncated. -/
theorem transfer_file (env : Env) (filename : GoString) (length : Int)
    (body : List ReadResult) (fs : FS)
    (hbody : ∀ r ∈ body,
      r.data ≠ [] ∧ r.data.length ≤ 4068 ∧ (r.err = none ∨ r.err = some .EOF))
    (hw : ∀ i, env.writeFault i = none)
    (hfit : length < 0 ∨ (1 ≤ length ∧ ((bodyBytes body).length : Int) ≤ length))
    (hS : 3800 * ((bodyBytes body).length : Int) < 2 ^ 63)
    (hname : filename ≠ ['/']) (hdir : fs filename ≠ some .dir) :
    ∃ old, (fs filename = some (.file old) ∨ (fs filename = none ∧ old = [])) ∧
      (transfer env fs filename length body).outcome = .returned none ∧
      (transfer env fs filename length body).fs filename
        = some (.file (bodyBytes body ++ old.drop (bodyBytes body).length)) := by
  unfold transfer OpenFile
  rw [if_neg hname]
  cases hfs : fs filename with
  | none =>
    have hopen : (Function.update fs filename (some (Node.file []))) filename
        = some (.file []) := Function.update_same _ _ _
    obtain ⟨lines, line, _, _, hrun⟩ :=
      copyLoop_state env filename length hw body 0 0 0 _ [] [] hbody (le_refl _)
        (by rw [bodySize_eq]; omega) (by rw [bodySize_eq]; omega) hopen (Nat.zero_le _)
    refine ⟨[], Or.inr ⟨rfl, rfl⟩, ?_, ?_⟩
    · simp only [hrun]
    · simp only [hrun, Function.update_same]
      simp [writeAt]
  | some node =>
    cases node with
    | dir => exact absurd hfs hdir
    | file old =>
      obtain ⟨lines, line, _, _, hrun⟩ :=
        copyLoop_state env filename length hw body 0 0 0 fs [] old hbody (le_refl _)
          (by rw [bodySize_eq]; omega) (by rw [bodySize_eq]; omega) hfs (Nat.zero_le _)
      refine ⟨old, Or.inl rfl, ?_, ?_⟩
      · simp only [hrun]
      · simp only [hrun, Function.update_same]
        simp [writeAt]

/-- C4, at the failing input: an expected length of 0, which `download` receives
with an empty file served as `Content-Length: 0`. The loop ends at once, at the
first read, with the total 0, the sum of the sizes of no chunk; the last call of
`drawProgress` receives that total and panics on the division by the length, so
the final progress line and the completion message are never written and the
call does not return: for the URL path `/empty.txt` the file is created empty,
nothing is written to `errPipe`, and `download` panics.  With an expected length
of 0 the same happens after the first chunk of any body. -/
theorem copyLoop_zero_length :
    (∀ (env : Env) (filename : GoString) (total : Int) (i off : Nat) (fs : FS)
        (log : List GoString),
      copyLoop env filename 0 [] total i off fs log = ⟨.panicked .divideByZero, fs, log⟩) ∧
    bodySize [] = 0 ∧
    (download sampleEnv sampleFS
      (.ok { sampleResponse with urlPath := "/empty.txt".toList,
                                 contentLength := "0".toList, body := [] })).outcome
      = .panicked .divideByZero ∧
    (download sampleEnv sampleFS
      (.ok { sampleResponse with urlPath := "/empty.txt".toList,
                                 contentLength := "0".toList, body := [] })).stderr = [] ∧
    (download sampleEnv sampleFS
      (.ok { sampleResponse with urlPath := "/empty.txt".toList,
                                 contentLength := "0".toList, body := [] })).fs
        "empty.txt".toList = some (.file []) ∧
    (copyLoop sampleEnv "report.pdf".toList 0 [⟨"ne".toList, none⟩, ⟨"w".toList, none⟩]
        0 0 0 sampleFS []).outcome = .panicked .divideByZero ∧
    (copyLoop sampleEnv "report.pdf".toList 0 [⟨"ne".toList, none⟩, ⟨"w".toList, none⟩]
        0 0 0 sampleFS []).stderr = [] := by
  refine ⟨fun _ _ _ _ _ _ _ => rfl, rfl, ?_, ?_, ?_, ?_, ?_⟩ <;> decide

/-! ## `path.Clean` on a rooted path, and `filepath.Base` of its result -/

/-- The byte read at a valid index is a member of the string. -/
theorem getD_mem_of_lt (l : GoString) (j : Nat) (d : Char) (h : j < l.length) :
    l.getD j d ∈ l := by
  rw [List.getD_eq_getElem _ _ h]
  exact List.getElem_mem h

/-- The inner loop of the `..` case stops at the first index `m`, going down from
`w`, that is at most `dotdot` or holds a slash. -/
theorem backtrackFrom_eq (buf : GoString) (dotdot m : Nat)
    (hstop : m ≤ dotdot ∨ buf.getD m '/' = '/') :
    ∀ w, m ≤ w → (∀ j, m < j → j ≤ w → dotdot < j ∧ buf.getD j '/' ≠ '/') →
      backtrackFrom buf dotdot w = m := by
  intro w
  induction w with
  | zero =>
    intro hm _
    have : m = 0 := by omega
    subst this
    rfl
  | succ w ih =>
    intro hm hj
    unfold backtrackFrom
    by_cases hmw : m = w + 1
    · subst hmw
      rw [if_neg]
      rintro ⟨h1, h2⟩
      rcases hstop with h | h
      · omega
      · exact h2 h
    · have hlt : m < w + 1 := by omega
      rw [if_pos (hj (w + 1) hlt (le_refl _))]
      exact ih (by omega) (fun j h1 h2 => hj j h1 (by omega))

/-- Backtracking over an element that starts at `dotdot` stops at `dotdot`. -/
theorem backtrackFrom_at_dotdot (P e : GoString) (he : '/' ∉ e) (hne : e ≠ []) :
    backtrackFrom (P ++ e) P.length ((P ++ e).length - 1) = P.length := by
  have hpos : 0 < e.length := List.length_pos.2 hne
  apply backtrackFrom_eq _ _ _ (Or.inl (le_refl _))
  · simp only [List.length_append]
    omega
  · intro j h1 h2
    simp only [List.length_append] at h2
    refine ⟨h1, ?_⟩
    rw [List.getD_append_right _ _ _ _ (by omega)]
    intro h
    have := getD_mem_of_lt e (j - P.length) '/' (by omega)
    rw [h] at this
    exact he this

/-- Backtracking over an element that follows a slash stops at that slash. -/
theorem backtrackFrom_at_slash (A e : GoString) (dotdot : Nat) (hd : dotdot ≤ A.length)
    (he : '/' ∉ e) :
    backtrackFrom (A ++ '/' :: e) dotdot ((A ++ '/' :: e).length - 1) = A.length := by
  apply backtrackFrom_eq
  · right
    rw [List.getD_append_right _ _ _ _ (le_refl _)]
    simp
  · simp only [List.length_append, List.length_cons]
    omega
  · intro j h1 h2
    simp only [List.length_append, List.length_cons] at h2
    refine ⟨by omega, ?_⟩
    rw [List.getD_append_right _ _ _ _ (by omega)]
    obtain ⟨k, hk⟩ : ∃ k, j - A.length = k + 1 := ⟨j - A.length - 1, by omega⟩
    rw [hk, List.getD_cons_succ]
    intro h
    have := getD_mem_of_lt e k '/' (by omega)
    rw [h] at this
    exact he this

/-- Appending an element to the elements of a path. -/
theorem joinElems_concat (es : List GoString) (e : GoString) :
    joinElems (es ++ [e]) = joinElems es ++ '/' :: e := by
  simp [joinElems]

/-- A path with at least one element, all of them non-empty, has two bytes or
more. -/
theorem two_le_length_joinElems (es : List GoString) (hne : es ≠ [])
    (h : ∀ e ∈ es, isElem e) : 2 ≤ (joinElems es).length := by
  cases es with
  | nil => exact absurd rfl hne
  | cons e rest =>
    have := List.length_pos.2 (h e (List.mem_cons_self _ _)).1
    simp only [joinElems, List.map_cons, List.flatten_cons, List.length_append,
      List.length_cons]
    omega

/-- The `..` case of `Clean` on a rooted path with a last element removes that
element. -/
theorem backtrack_rootedPath (init : List GoString) (last : GoString)
    (hinit : ∀ e ∈ init, isElem e) (hlast : isElem last) :
    (joinElems (init ++ [last])).take
        (backtrackFrom (joinElems (init ++ [last])) 1
          ((joinElems (init ++ [last])).length - 1))
      = rootedPath init := by
  rw [joinElems_concat]
  by_cases hi : init = []
  · subst hi
    have := backtrackFrom_at_dotdot ['/'] last hlast.2.1 hlast.1
    simp only [joinElems, List.map_nil, List.flatten_nil, List.nil_append, rootedPath,
      if_true]
    simp only [List.singleton_append, List.length_singleton] at this
    rw [this]
    rfl
  · have h2 := two_le_length_joinElems init hi hinit
    rw [backtrackFrom_at_slash _ _ _ (by omega) hlast.2.1, List.take_left]
    simp [rootedPath, hi]

/-- Reading up to the next slash yields nothing exactly when there is nothing to
read or a slash comes first. -/
theorem takeWhile_notSlash_eq_nil (l : GoString) (h : l.takeWhile (· ≠ '/') = []) :
    l = [] ∨ l.head? = some '/' := by
  cases l with
  | nil => exact Or.inl rfl
  | cons a t =>
    right
    by_cases ha : a = '/'
    · rw [ha]; rfl
    · rw [List.takeWhile_cons_of_pos (by simpa using ha)] at h
      exact absurd h (by simp)

/-- The element copied by the default case of `Clean` is a proper element. -/
theorem isElem_takeWhile (c : Char) (cs : GoString) (h1 : c ≠ '/')
    (h2 : ¬ (c = '.' ∧ (cs = [] ∨ cs.head? = some '/')))
    (h3 : ¬ (c = '.' ∧ cs.head? = some '.' ∧ (cs.tail = [] ∨ cs.tail.head? = some '/'))) :
    isElem ((c :: cs).takeWhile (· ≠ '/')) := by
  have hc : (c :: cs).takeWhile (· ≠ '/') = c :: cs.takeWhile (· ≠ '/') :=
    List.takeWhile_cons_of_pos (by simpa using h1)
  rw [hc]
  refine ⟨by simp, ?_, ?_, ?_⟩
  · intro hmem
    rcases List.mem_cons.1 hmem with h | h
    · exact h1 h.symm
    · have := List.mem_takeWhile_imp h
      simp at this
  · intro h
    injection h with ha hb
    exact h2 ⟨ha, takeWhile_notSlash_eq_nil cs hb⟩
  · intro h
    injection h with ha hb
    cases cs with
    | nil => simp at hb
    | cons d ds =>
      by_cases hd : d = '/'
      · subst hd
        simp at hb
      · rw [List.takeWhile_cons_of_pos (by simpa using hd)] at hb
        injection hb with hd1 hd2
        exact h3 ⟨ha, by rw [hd1]; rfl, takeWhile_notSlash_eq_nil ds hd2⟩

/-- The main loop of `Clean`, started on a rooted path made of proper elements,
ends on a rooted path made of proper elements. -/
theorem cleanLoop_rootedPath (fuel : Nat) :
    ∀ (rest : GoString) (es : List GoString), (∀ e ∈ es, isElem e) →
      ∃ es', (∀ e ∈ es', isElem e) ∧
        cleanLoop true fuel rest (rootedPath es) 1 = rootedPath es' := by
  induction fuel with
  | zero => exact fun rest es h => ⟨es, h, rfl⟩
  | succ fuel ih =>
    intro rest es hes
    cases rest with
    | nil => exact ⟨es, hes, rfl⟩
    | cons c cs =>
      unfold cleanLoop
      simp only
      split
      · exact ih cs es hes
      · rename_i h1
        split
        · exact ih cs es hes
        · rename_i h2
          split
          · split
            · rename_i hlen
              rcases List.eq_nil_or_concat es with hnil | ⟨init, last, hcat⟩
              · subst hnil
                simp [rootedPath] at hlen
              · rw [List.concat_eq_append] at hcat
                subst hcat
                have hne : init ++ [last] ≠ [] := by simp
                have hinit : ∀ e ∈ init, isElem e :=
                  fun e he => hes e (List.mem_append_left _ he)
                have hlast : isElem last := hes last (by simp)
                have hr : rootedPath (init ++ [last]) = joinElems (init ++ [last]) := by
                  simp [rootedPath]
                rw [hr, backtrack_rootedPath init last hinit hlast]
                exact ih _ init hinit
            · simp only [Bool.not_true, Bool.false_eq_true, if_false]
              exact ih _ es hes
          · rename_i h3
            have helem := isElem_takeWhile c cs h1 h2 h3
            have hes' : ∀ e ∈ es ++ [(c :: cs).takeWhile (· ≠ '/')], isElem e := by
              intro e he
              rcases List.mem_append.1 he with h | h
              · exact hes e h
              · rw [List.mem_singleton.1 h]
                exact helem
            obtain ⟨es', h1', h2'⟩ := ih ((c :: cs).dropWhile (· ≠ '/')) _ hes'
            refine ⟨es', h1', ?_⟩
            rw [← h2']
            congr 1
            have hne : es ++ [(c :: cs).takeWhile (· ≠ '/')] ≠ [] := by simp
            by_cases hnil : es = []
            · subst hnil
              simp [rootedPath, joinElems]
            · have h2le := two_le_length_joinElems es hnil hes
              have hr : rootedPath es = joinElems es := by simp [rootedPath, hnil]
              rw [hr, if_pos (Or.inl ⟨trivial, by omega⟩)]
              simp only [rootedPath, hne, if_false, joinElems_concat, List.append_assoc,
                List.singleton_append]

/-- The bound on the iterations of the main loop of `Clean` is enough: once it
covers the bytes still to read, a larger bound gives the same result. -/
theorem cleanLoop_fuel (rooted : Bool) (fuel : Nat) :
    ∀ (k : Nat) (rest out : GoString) (dotdot : Nat), rest.length ≤ fuel →
      cleanLoop rooted (fuel + k) rest out dotdot = cleanLoop rooted fuel rest out dotdot := by
  induction fuel with
  | zero =>
    intro k rest out dotdot h
    have : rest = [] := List.length_eq_zero.1 (by omega)
    subst this
    cases k <;> rfl
  | succ fuel ih =>
    intro k rest out dotdot h
    cases rest with
    | nil => rw [show fuel + 1 + k = (fuel + k) + 1 by omega]; rfl
    | cons c cs =>
      have hcs : cs.length ≤ fuel := by simpa using h
      have htail : cs.tail.length ≤ fuel := by
        rw [List.length_tail]; omega
      have hdrop : c ≠ '/' → ((c :: cs).dropWhile (· ≠ '/')).length ≤ fuel := by
        intro hc
        rw [List.dropWhile_cons_of_pos (by simpa using hc)]
        exact le_trans (List.Sublist.length_le (List.dropWhile_sublist _)) hcs
      rw [show fuel + 1 + k = (fuel + k) + 1 by omega]
      unfold cleanLoop
      simp only
      split
      · exact ih k _ _ _ hcs
      · split
        · exact ih k _ _ _ hcs
        · split
          · split
            · exact ih k _ _ _ htail
            · split
              · exact ih k _ _ _ htail
              · exact ih k _ _ _ htail
          · rename_i h1 _ _
            exact ih k _ _ _ (hdrop h1)

/-- The function `Clean` on a path that starts with a slash returns a rooted path
made of proper elements; the bound given to its main loop is enough. -/
theorem Clean_rooted (name : GoString) :
    (∀ k, cleanLoop true (name.length + 1 + k) name ['/'] 1 = Clean ('/' :: name)) ∧
    ∃ es, (∀ e ∈ es, isElem e) ∧ Clean ('/' :: name) = rootedPath es := by
  obtain ⟨es, hes, hrun⟩ := cleanLoop_rootedPath (name.length + 1) name [] (by simp)
  have hroot : rootedPath [] = ['/'] := rfl
  rw [hroot] at hrun
  have hne : rootedPath es ≠ [] := by
    unfold rootedPath
    split
    · simp
    · rename_i h
      intro h0
      have := two_le_length_joinElems es h hes
      rw [h0] at this
      simp at this
  have hclean : Clean ('/' :: name) = rootedPath es := by
    unfold Clean
    simp only [List.cons_ne_nil, if_false, List.head?_cons, decide_True, if_true,
      List.length_cons, List.tail_cons, hrun]
    rw [if_neg hne]
  refine ⟨fun k => ?_, es, hes, hclean⟩
  rw [cleanLoop_fuel true (name.length + 1) k name ['/'] 1 (by omega), hrun, hclean]

/-- The function `Base` on a path that ends with a slash and a proper element
returns that element. -/
theorem Base_last (A last : GoString) (h : isElem last) : Base (A ++ '/' :: last) = last := by
  obtain ⟨hne, hslash, _, _⟩ := h
  have hstrip : (A ++ '/' :: last).rdropWhile (· = '/') = A ++ '/' :: last := by
    rcases List.eq_nil_or_concat last with h0 | ⟨l, x, hx⟩
    · exact absurd h0 hne
    · rw [List.concat_eq_append] at hx
      subst hx
      have hxs : x ≠ '/' := by
        intro hx
        apply hslash
        rw [hx]
        simp
      have : A ++ '/' :: (l ++ [x]) = (A ++ '/' :: l) ++ [x] := by simp
      rw [this]
      exact List.rdropWhile_concat_neg _ _ _ (by simpa using hxs)
  have htake : (A ++ '/' :: last).rtakeWhile (· ≠ '/') = last := by
    unfold List.rtakeWhile
    rw [List.reverse_append, List.reverse_cons, List.append_assoc,
      List.takeWhile_append_of_pos, List.singleton_append,
      List.takeWhile_cons_of_neg (by simp), List.append_nil, List.reverse_reverse]
    intro a ha
    have : a ≠ '/' := by
      intro h
      apply hslash
      rw [← h]
      exact List.mem_reverse.1 ha
    simpa using this
  unfold Base
  rw [if_neg (by simp)]
  simp only [hstrip, htake]
  rw [if_neg hne]

/-- C1 as stated fails at the path `/` (and at the empty path and at `..`): the
derived name is `/`, the separator itself, no path segment being left; `download`
then fails to open it. -/
theorem sanitize_root :
    sanitize "/".toList = "/".toList ∧ '/' ∈ sanitize "/".toList ∧
    sanitize "".toList = "/".toList ∧ sanitize "..".toList = "/".toList ∧
    (download sampleEnv sampleFS (.ok { sampleResponse with urlPath := "/".toList })).outcome
      = .returned (some (.pathError "open".toList "/".toList)) := by
  decide

/-- C1, amended. For every input path string the normalised path
`path.Clean("/" + name)` is either `/` alone, and then the derived name is `/`, or
it ends with a slash followed by the derived name, which is then a proper final
segment: not empty, without any separator, and neither `.` nor `..`.  The two
inputs of the claim give `passwd` and `report.pdf`. -/
theorem sanitize_segment :
    (∀ name : GoString,
      (Clean ('/' :: name) = ['/'] ∧ sanitize name = ['/']) ∨
      (∃ dir, Clean ('/' :: name) = dir ++ '/' :: sanitize name ∧ isElem (sanitize name))) ∧
    sanitize "../../etc/passwd".toList = "passwd".toList ∧
    sanitize "/a/b/c/report.pdf".toList = "report.pdf".toList := by
  refine ⟨?_, by decide, by decide⟩
  intro name
  obtain ⟨_, es, hes, hclean⟩ := Clean_rooted name
  unfold sanitize
  rw [hclean]
  rcases List.eq_nil_or_concat es with hnil | ⟨init, last, hcat⟩
  · subst hnil
    left
    exact ⟨rfl, by decide⟩
  · rw [List.concat_eq_append] at hcat
    subst hcat
    right
    have hlast : isElem last := hes last (by simp)
    have hr : rootedPath (init ++ [last]) = joinElems init ++ '/' :: last := by
      simp [rootedPath, joinElems_concat]
    rw [hr, Base_last _ _ hlast]
    exact ⟨_, rfl, hlast⟩

end Wget
